import Mathlib

/-!
# Affiliate-Program dashboard: event classification and aggregation

Shallow embedding of the event-aggregation core of the affiliate/referral
analytics dashboard, together with proofs of its specification claims.

Conventions of the embedding:
* TypeScript numbers that hold money are modelled as `ℚ`; `Number(x.toFixed(2))`
  on the non-negative amounts used here is modelled as rounding to the nearest
  multiple of `1/100` (half up), `round2`.
* ISO date strings (`"YYYY-MM-DD"`) are modelled as `Int` day numbers; an ISO
  timestamp is a day number plus a time-of-day, and `timestamp.split("T")[0]`
  is the projection to the day.  Lexicographic order on zero-padded ISO dates
  coincides with the numeric order of day numbers.
* `undefined`/missing optional values are `Option.none`.
* JavaScript `Map`s used by the source are insertion-ordered; they are
  modelled as association lists to which new keys are appended at the end.
-/

namespace AffiliateProgram

/-- A raw RevenueCat-style purchase/lifecycle event (`types/purchaseHistory.ts`,
`PurchaseEvent`).  Only the fields inspected by the aggregation functions are
carried; the remaining descriptive fields (product id, store, country,
transaction ids, ...) are opaque to every function modelled here. -/
structure PurchaseEvent where
  type : String
  period_type : String
  price : ℚ
  purchased_at_ms : Int
  deriving Repr, DecidableEq

/-- A pair of per-user conversion flags/counts (`{ trial, paid }` as returned by
`countConversionsFromEvents` / `countConversionsFromMultipleUsers`). -/
structure Conversions where
  trial : Nat
  paid : Nat
  deriving Repr, DecidableEq

/-- `trialVsPurchaseIdentifier` (event classifier):
`INITIAL_PURCHASE`+`TRIAL` ↦ `"free_trial"`, `INITIAL_PURCHASE`+`NORMAL` ↦
`"purchase"`, `RENEWAL` (any period) ↦ `"purchase"`, anything else ↦ `none`. -/
def trialVsPurchaseIdentifier (event : PurchaseEvent) : Option String :=
  if event.type = "INITIAL_PURCHASE" ∧ event.period_type = "TRIAL" then
    some "free_trial"
  else if event.type = "INITIAL_PURCHASE" ∧ event.period_type = "NORMAL" then
    some "purchase"
  else if event.type = "RENEWAL" then
    some "purchase"
  else
    none

/-- Mutable loop state of `countConversionsFromEvents`: the two `hasX` flags
and the `conversions` record being built. -/
structure CountState where
  hasFreeTrial : Bool
  hasPurchase : Bool
  conversions : Conversions
  deriving Repr, DecidableEq

/-- One iteration of the `events.forEach` loop in `countConversionsFromEvents`. -/
def countStep (st : CountState) (event : PurchaseEvent) : CountState :=
  let category := trialVsPurchaseIdentifier event
  if category = some "free_trial" ∧ st.hasFreeTrial = false then
    { st with hasFreeTrial := true, conversions := { st.conversions with trial := 1 } }
  else if category = some "purchase" ∧ st.hasPurchase = false then
    { st with hasPurchase := true, conversions := { st.conversions with paid := 1 } }
  else
    st

/-- `countConversionsFromEvents`: one-time commission model for a single user's
event list; each of `trial` and `paid` is set to `1` on the first event of the
matching category and never incremented again. -/
def countConversionsFromEvents (events : List PurchaseEvent) : Conversions :=
  (events.foldl countStep ⟨false, false, ⟨0, 0⟩⟩).conversions

/-- `countConversionsFromMultipleUsers`: sum of the per-user conversion flags
over a list of per-user event lists. -/
def countConversionsFromMultipleUsers (usersEvents : List (List PurchaseEvent)) :
    Conversions :=
  usersEvents.foldl
    (fun totals userEvents =>
      let userConversions := countConversionsFromEvents userEvents
      ⟨totals.trial + userConversions.trial, totals.paid + userConversions.paid⟩)
    ⟨0, 0⟩

/-- Concrete sample event: an initial purchase that starts a free trial. -/
def sampleTrialEvent : PurchaseEvent :=
  { type := "INITIAL_PURCHASE", period_type := "TRIAL", price := 0, purchased_at_ms := 1704067200000 }

/-- Concrete sample event: an initial purchase of a normal (paid) period. -/
def samplePaidEvent : PurchaseEvent :=
  { type := "INITIAL_PURCHASE", period_type := "NORMAL", price := 10, purchased_at_ms := 1704067200000 }

/-- Concrete sample event: a renewal (no `INITIAL_PURCHASE`). -/
def sampleRenewalEvent : PurchaseEvent :=
  { type := "RENEWAL", period_type := "NORMAL", price := 10, purchased_at_ms := 1704412800000 }

section ClassifierLemmas

theorem countStep_free_trial (st : CountState) (ev : PurchaseEvent)
    (h : trialVsPurchaseIdentifier ev = some "free_trial") :
    countStep st ev =
      if st.hasFreeTrial then st
      else ⟨true, st.hasPurchase, ⟨1, st.conversions.paid⟩⟩ := by
  unfold countStep
  rw [h]
  cases hft : st.hasFreeTrial <;> simp [hft]

theorem countStep_purchase (st : CountState) (ev : PurchaseEvent)
    (h : trialVsPurchaseIdentifier ev = some "purchase") :
    countStep st ev =
      if st.hasPurchase then st
      else ⟨st.hasFreeTrial, true, ⟨st.conversions.trial, 1⟩⟩ := by
  unfold countStep
  rw [h]
  cases hp : st.hasPurchase <;> simp [hp]

theorem foldl_countStep_free_trial_absorbed (events : List PurchaseEvent)
    (h : ∀ ev ∈ events, trialVsPurchaseIdentifier ev = some "free_trial") :
    ∀ st : CountState, st.hasFreeTrial = true → events.foldl countStep st = st := by
  induction events with
  | nil => intro st _; rfl
  | cons e es ih =>
    intro st hft
    have he : trialVsPurchaseIdentifier e = some "free_trial" := h e (by simp)
    have hstep : countStep st e = st := by rw [countStep_free_trial st e he, hft]; simp
    simpa [List.foldl_cons, hstep] using
      ih (fun ev hev => h ev (by simp [hev])) st hft

theorem foldl_countStep_free_trial (events : List PurchaseEvent)
    (hne : events ≠ [])
    (h : ∀ ev ∈ events, trialVsPurchaseIdentifier ev = some "free_trial") :
    ∀ st : CountState, st.hasFreeTrial = false →
      events.foldl countStep st = ⟨true, st.hasPurchase, ⟨1, st.conversions.paid⟩⟩ := by
  cases events with
  | nil => exact absurd rfl hne
  | cons e es =>
    intro st hft
    have he : trialVsPurchaseIdentifier e = some "free_trial" := h e (by simp)
    have hstep : countStep st e = ⟨true, st.hasPurchase, ⟨1, st.conversions.paid⟩⟩ := by
      rw [countStep_free_trial st e he, hft]; simp
    rw [List.foldl_cons, hstep]
    exact foldl_countStep_free_trial_absorbed es
      (fun ev hev => h ev (by simp [hev])) _ rfl

theorem foldl_countStep_purchase_absorbed (events : List PurchaseEvent)
    (h : ∀ ev ∈ events, trialVsPurchaseIdentifier ev = some "purchase") :
    ∀ st : CountState, st.hasPurchase = true → events.foldl countStep st = st := by
  induction events with
  | nil => intro st _; rfl
  | cons e es ih =>
    intro st hp
    have he : trialVsPurchaseIdentifier e = some "purchase" := h e (by simp)
    have hstep : countStep st e = st := by rw [countStep_purchase st e he, hp]; simp
    simpa [List.foldl_cons, hstep] using
      ih (fun ev hev => h ev (by simp [hev])) st hp

theorem foldl_countStep_purchase (events : List PurchaseEvent)
    (hne : events ≠ [])
    (h : ∀ ev ∈ events, trialVsPurchaseIdentifier ev = some "purchase") :
    ∀ st : CountState, st.hasPurchase = false →
      events.foldl countStep st = ⟨st.hasFreeTrial, true, ⟨st.conversions.trial, 1⟩⟩ := by
  cases events with
  | nil => exact absurd rfl hne
  | cons e es =>
    intro st hp
    have he : trialVsPurchaseIdentifier e = some "purchase" := h e (by simp)
    have hstep : countStep st e = ⟨st.hasFreeTrial, true, ⟨st.conversions.trial, 1⟩⟩ := by
      rw [countStep_purchase st e he, hp]; simp
    rw [List.foldl_cons, hstep]
    exact foldl_countStep_purchase_absorbed es
      (fun ev hev => h ev (by simp [hev])) _ rfl

theorem countStep_conversions_le (st : CountState) (ev : PurchaseEvent)
    (h : st.conversions.trial ≤ 1 ∧ st.conversions.paid ≤ 1) :
    (countStep st ev).conversions.trial ≤ 1 ∧ (countStep st ev).conversions.paid ≤ 1 := by
  simp only [countStep]
  split_ifs
  · exact ⟨le_refl 1, h.2⟩
  · exact ⟨h.1, le_refl 1⟩
  · exact h

theorem foldl_countStep_conversions_le (events : List PurchaseEvent) :
    ∀ st : CountState, st.conversions.trial ≤ 1 ∧ st.conversions.paid ≤ 1 →
      (events.foldl countStep st).conversions.trial ≤ 1 ∧
      (events.foldl countStep st).conversions.paid ≤ 1 := by
  induction events with
  | nil => intro st h; exact h
  | cons e es ih =>
    intro st h
    exact ih (countStep st e) (countStep_conversions_le st e h)

theorem countConversionsFromEvents_le_one (events : List PurchaseEvent) :
    (countConversionsFromEvents events).trial ≤ 1 ∧
    (countConversionsFromEvents events).paid ≤ 1 :=
  foldl_countStep_conversions_le events ⟨false, false, ⟨0, 0⟩⟩ (by constructor <;> simp)

theorem countConversionsFromMultipleUsers_foldl_le
    (usersEvents : List (List PurchaseEvent)) :
    ∀ acc : Conversions,
      (usersEvents.foldl
        (fun totals userEvents =>
          let userConversions := countConversionsFromEvents userEvents
          (⟨totals.trial + userConversions.trial,
            totals.paid + userConversions.paid⟩ : Conversions)) acc).trial ≤
        acc.trial + usersEvents.length ∧
      (usersEvents.foldl
        (fun totals userEvents =>
          let userConversions := countConversionsFromEvents userEvents
          (⟨totals.trial + userConversions.trial,
            totals.paid + userConversions.paid⟩ : Conversions)) acc).paid ≤
        acc.paid + usersEvents.length := by
  induction usersEvents with
  | nil => intro acc; simp
  | cons u us ih =>
    intro acc
    have hu := countConversionsFromEvents_le_one u
    have := ih ⟨acc.trial + (countConversionsFromEvents u).trial,
                acc.paid + (countConversionsFromEvents u).paid⟩
    constructor
    · calc _ ≤ acc.trial + (countConversionsFromEvents u).trial + us.length := this.1
        _ ≤ acc.trial + 1 + us.length := by omega
        _ = acc.trial + (u :: us).length := by simp [List.length_cons]; omega
    · calc _ ≤ acc.paid + (countConversionsFromEvents u).paid + us.length := this.2
        _ ≤ acc.paid + 1 + us.length := by omega
        _ = acc.paid + (u :: us).length := by simp [List.length_cons]; omega

end ClassifierLemmas

/-- **C1**: `trialVsPurchaseIdentifier` returns `"free_trial"` exactly on
`(INITIAL_PURCHASE, TRIAL)`, `"purchase"` exactly on `(INITIAL_PURCHASE,
NORMAL)` or `RENEWAL` (any period type), `none` in every other case
(`CANCELLATION`, `SUBSCRIPTION_PAUSED`, ...), and depends only on the
`(type, period_type)` pair. -/
theorem classifier_cases (ev ev' : PurchaseEvent) :
    (trialVsPurchaseIdentifier ev = some "free_trial" ↔
      ev.type = "INITIAL_PURCHASE" ∧ ev.period_type = "TRIAL")
    ∧ (trialVsPurchaseIdentifier ev = some "purchase" ↔
      (ev.type = "INITIAL_PURCHASE" ∧ ev.period_type = "NORMAL") ∨ ev.type = "RENEWAL")
    ∧ (trialVsPurchaseIdentifier ev = none ↔
      ¬ (ev.type = "INITIAL_PURCHASE" ∧
          (ev.period_type = "TRIAL" ∨ ev.period_type = "NORMAL")) ∧
        ev.type ≠ "RENEWAL")
    ∧ (ev.type = ev'.type → ev.period_type = ev'.period_type →
      trialVsPurchaseIdentifier ev = trialVsPurchaseIdentifier ev') := by
  unfold trialVsPurchaseIdentifier
  refine ⟨?_, ?_, ?_, ?_⟩
  · split_ifs <;> simp_all
  · split_ifs <;> simp_all
  · split_ifs <;> simp_all
  · intro h1 h2
    rw [h1, h2]

/-- Witness for C1 at a concrete pair of events with equal `(type, period_type)`. -/
theorem classifier_cases_witness :
    trialVsPurchaseIdentifier sampleTrialEvent = some "free_trial" ∧
    trialVsPurchaseIdentifier sampleRenewalEvent =
      trialVsPurchaseIdentifier
        { sampleRenewalEvent with price := 99, purchased_at_ms := 0 } :=
  ⟨((classifier_cases sampleTrialEvent sampleTrialEvent).1).2 (by constructor <;> rfl),
    (classifier_cases sampleRenewalEvent
      { sampleRenewalEvent with price := 99, purchased_at_ms := 0 }).2.2.2 rfl rfl⟩

/-- **C2**: for a single user whose `N ≥ 1` events all classify to the same
category, `countConversionsFromEvents` returns `1` for that category and `0`
for the other, independently of `N`; and `countConversionsFromMultipleUsers`
sums per-user `0/1` flags, so each total is at most the number of users. -/
theorem one_time_per_user_counting (events : List PurchaseEvent)
    (usersEvents : List (List PurchaseEvent)) :
    (events ≠ [] → (∀ ev ∈ events, trialVsPurchaseIdentifier ev = some "free_trial") →
      countConversionsFromEvents events = ⟨1, 0⟩)
    ∧ (events ≠ [] → (∀ ev ∈ events, trialVsPurchaseIdentifier ev = some "purchase") →
      countConversionsFromEvents events = ⟨0, 1⟩)
    ∧ (countConversionsFromMultipleUsers usersEvents).trial ≤ usersEvents.length
    ∧ (countConversionsFromMultipleUsers usersEvents).paid ≤ usersEvents.length := by
  refine ⟨?_, ?_, ?_, ?_⟩
  · intro hne h
    unfold countConversionsFromEvents
    rw [foldl_countStep_free_trial events hne h ⟨false, false, ⟨0, 0⟩⟩ rfl]
  · intro hne h
    unfold countConversionsFromEvents
    rw [foldl_countStep_purchase events hne h ⟨false, false, ⟨0, 0⟩⟩ rfl]
  · simpa using (countConversionsFromMultipleUsers_foldl_le usersEvents ⟨0, 0⟩).1
  · simpa using (countConversionsFromMultipleUsers_foldl_le usersEvents ⟨0, 0⟩).2

/-- Witness for C2: two identically-classified events for one user yield a
single conversion, and one-user totals are bounded by the user count. -/
theorem one_time_per_user_counting_witness :
    countConversionsFromEvents [sampleRenewalEvent, sampleRenewalEvent] = ⟨0, 1⟩ ∧
    (countConversionsFromMultipleUsers
      [[sampleRenewalEvent, sampleRenewalEvent]]).paid ≤ 1 := by
  have h := one_time_per_user_counting [sampleRenewalEvent, sampleRenewalEvent]
    [[sampleRenewalEvent, sampleRenewalEvent]]
  refine ⟨h.2.1 (by simp) ?_, by simpa using h.2.2.2⟩
  intro ev hev
  simp only [List.mem_cons, List.not_mem_nil, or_false] at hev
  rcases hev with rfl | rfl <;> rfl

/-- **C3**: a user whose events are an `INITIAL_PURCHASE`/`TRIAL` followed by a
`RENEWAL` is counted once in *each* category: the two categories are capped at
one independently, not mutually exclusive. -/
theorem trial_then_renewal_counts_both :
    countConversionsFromEvents [sampleTrialEvent, sampleRenewalEvent] = ⟨1, 1⟩ := by
  rfl

/-! ## Earnings (`utils/earnings.ts` fixed-rate revision, `utils/transformers.ts`) -/

/-- `Number(x.toFixed(2))` on the non-negative monetary amounts used by the
earnings code: rounding to the nearest multiple of `1/100`, half up. -/
def round2 (x : ℚ) : ℚ :=
  (⌊x * 100 + 1 / 2⌋ : ℚ) / 100

/-- Commission rates (`CommissionRate`): a fixed rate per trial conversion and
per paid conversion. -/
structure CommissionRate where
  perTrialConversion : ℚ
  perPaidConversion : ℚ
  currency : String
  deriving Repr, DecidableEq

/-- The earnings record returned by `calculateEarnings` (`EarningsBreakdown`
in the fixed-rate revision). -/
structure EarningsBreakdown where
  fromTrials : ℚ
  fromPaid : ℚ
  total : ℚ
  currency : String
  deriving Repr, DecidableEq

/-- `calculateEarnings` (fixed-rate revision): per-category contributions are
`count * rate`; the stored breakdown values are each rounded to 2 decimals,
and `total` is the 2-decimal rounding of the *unrounded* sum. -/
def calculateEarnings (trialConversions paidConversions : ℚ) (rates : CommissionRate) :
    EarningsBreakdown :=
  let fromTrials := trialConversions * rates.perTrialConversion
  let fromPaid := paidConversions * rates.perPaidConversion
  let total := fromTrials + fromPaid
  { fromTrials := round2 fromTrials
    fromPaid := round2 fromPaid
    total := round2 total
    currency := rates.currency }

/-- A commission rule scoped to a referral code (`CommissionRule`). -/
structure CommissionRule where
  event : String
  rate : ℚ
  currency : String
  display_name : Option String
  deriving Repr, DecidableEq

/-- Earnings with a per-event breakdown, as carried by the transformed
referral codes consumed by `calculateDashboardStats`. -/
structure DynEarningsBreakdown where
  breakdown : List (String × ℚ)
  total : ℚ
  currency : String
  deriving Repr, DecidableEq

/-- Derived referral-code status (`ReferralStatus`). -/
inductive ReferralStatus
  | active
  | inactive
  | exhausted
  deriving Repr, DecidableEq

/-- A transformed (frontend) referral code, with the fields read by
`calculateDashboardStats` (`ReferralCode` in `types/index.ts`). -/
structure ReferralCode where
  id : String
  code : String
  createdAt : Int
  conversions : Nat
  status : ReferralStatus
  commissionConfig : List CommissionRule
  quota : Option Int
  referralsCount : Nat
  signupConversions : Nat
  startDate : Option Int
  endDate : Option Int
  trialConversions : Nat
  paidConversions : Nat
  earnings : DynEarningsBreakdown
  deriving Repr, DecidableEq

/-- The dashboard aggregate (`DashboardStats`). -/
structure DashboardStats where
  totalReferralCodes : Nat
  activeReferralCodes : Nat
  inactiveReferralCodes : Nat
  exhaustedReferralCodes : Nat
  totalConversions : Nat
  totalReferrals : Nat
  signupConversions : Nat
  trialConversions : Nat
  paidConversions : Nat
  totalEarnings : DynEarningsBreakdown
  deriving Repr, DecidableEq

/-- `createEmptyDashboardStats`. -/
def createEmptyDashboardStats (currency : String) : DashboardStats :=
  { totalReferralCodes := 0
    activeReferralCodes := 0
    inactiveReferralCodes := 0
    exhaustedReferralCodes := 0
    totalConversions := 0
    totalReferrals := 0
    signupConversions := 0
    trialConversions := 0
    paidConversions := 0
    totalEarnings := { breakdown := [], total := 0, currency := currency } }

/-- `acc.totalEarnings.breakdown[event] = (acc.totalEarnings.breakdown[event] || 0) + amount`
on the insertion-ordered breakdown object. -/
def breakdownAdd (acc : List (String × ℚ)) (entry : String × ℚ) : List (String × ℚ) :=
  if (acc.find? (fun p => p.1 = entry.1)).isSome then
    acc.map (fun p => if p.1 = entry.1 then (p.1, p.2 + entry.2) else p)
  else
    acc ++ [entry]

/-- The status tallies of the `reduce` body in `calculateDashboardStats`. -/
def statusBump (acc : DashboardStats) (s : ReferralStatus) : DashboardStats :=
  if s = ReferralStatus.active then
    { acc with activeReferralCodes := acc.activeReferralCodes + 1 }
  else if s = ReferralStatus.inactive then
    { acc with inactiveReferralCodes := acc.inactiveReferralCodes + 1 }
  else if s = ReferralStatus.exhausted then
    { acc with exhaustedReferralCodes := acc.exhaustedReferralCodes + 1 }
  else
    acc

/-- One iteration of the `reduce` in `calculateDashboardStats`. -/
def dashboardFold (acc : DashboardStats) (code : ReferralCode) : DashboardStats :=
  let acc :=
    { acc with
      totalConversions := acc.totalConversions + code.conversions
      signupConversions := acc.signupConversions + code.signupConversions
      trialConversions := acc.trialConversions + code.trialConversions
      paidConversions := acc.paidConversions + code.paidConversions
      totalReferrals := acc.totalReferrals + code.referralsCount }
  let acc := statusBump acc code.status
  { acc with
    totalEarnings :=
      { breakdown := code.earnings.breakdown.foldl breakdownAdd acc.totalEarnings.breakdown
        total := acc.totalEarnings.total + code.earnings.total
        currency := code.earnings.currency } }

/-- `calculateDashboardStats`: reduce all codes into the empty stats, then
round the accumulated earnings total to 2 decimals. -/
def calculateDashboardStats (referralCodes : List ReferralCode) : DashboardStats :=
  let defaultCurrency := ((referralCodes.head?).map (fun c => c.earnings.currency)).getD "USD"
  let totals := referralCodes.foldl dashboardFold (createEmptyDashboardStats defaultCurrency)
  { totals with
    totalReferralCodes := referralCodes.length
    totalEarnings :=
      { breakdown := totals.totalEarnings.breakdown
        total := round2 totals.totalEarnings.total
        currency := totals.totalEarnings.currency } }

theorem statusBump_totalEarnings (acc : DashboardStats) (s : ReferralStatus) :
    (statusBump acc s).totalEarnings = acc.totalEarnings := by
  unfold statusBump
  split_ifs <;> rfl

theorem foldl_dashboardFold_total (codes : List ReferralCode) :
    ∀ acc : DashboardStats,
      (codes.foldl dashboardFold acc).totalEarnings.total =
        acc.totalEarnings.total + (codes.map (fun c => c.earnings.total)).sum := by
  induction codes with
  | nil => intro acc; simp
  | cons c cs ih =>
    intro acc
    rw [List.foldl_cons, ih]
    simp only [dashboardFold, statusBump_totalEarnings, List.map_cons, List.sum_cons]
    ring

/-- **C4, counterexample**: with rates of `0.004` per conversion and one
conversion of each kind, both stored breakdown values round to `0.00` while
the stored total is `round2 0.008 = 0.01`: the per-code total is *not* the
2-decimal rounding of the (already individually rounded) breakdown values. -/
theorem earnings_round_trip_counterexample :
    (calculateEarnings 1 1 ⟨1 / 250, 1 / 250, "USD"⟩).fromTrials = 0 ∧
    (calculateEarnings 1 1 ⟨1 / 250, 1 / 250, "USD"⟩).fromPaid = 0 ∧
    (calculateEarnings 1 1 ⟨1 / 250, 1 / 250, "USD"⟩).total = 1 / 100 ∧
    (calculateEarnings 1 1 ⟨1 / 250, 1 / 250, "USD"⟩).total ≠
      round2 ((calculateEarnings 1 1 ⟨1 / 250, 1 / 250, "USD"⟩).fromTrials +
        (calculateEarnings 1 1 ⟨1 / 250, 1 / 250, "USD"⟩).fromPaid) := by
  refine ⟨?_, ?_, ?_, ?_⟩ <;> norm_num [calculateEarnings, round2]

/-- **C4, amended**: each breakdown value is rounded to 2 decimals
individually, the per-code `total` is the 2-decimal rounding of the
*unrounded* sum of the per-category contributions, and the dashboard-level
total earnings is the 2-decimal rounding of the sum of all per-code earnings
totals. -/
theorem earnings_round_trip_amended (t p : ℚ) (r : CommissionRate)
    (codes : List ReferralCode) :
    (calculateEarnings t p r).fromTrials = round2 (t * r.perTrialConversion)
    ∧ (calculateEarnings t p r).fromPaid = round2 (p * r.perPaidConversion)
    ∧ (calculateEarnings t p r).total =
        round2 (t * r.perTrialConversion + p * r.perPaidConversion)
    ∧ (calculateDashboardStats codes).totalEarnings.total =
        round2 ((codes.map (fun c => c.earnings.total)).sum) := by
  refine ⟨rfl, rfl, rfl, ?_⟩
  simp only [calculateDashboardStats]
  rw [foldl_dashboardFold_total]
  simp [createEmptyDashboardStats]

/-! ## Referral-code transformation (`utils/transformers.ts`) -/

/-- Per-code stats delivered by the backend (`backendRef.stats`); every field
may be absent. -/
structure ReferralStats where
  totalReferrals : Option Nat
  free_trial : Option Nat
  purchase : Option Nat
  deriving Repr, DecidableEq

/-- A backend referral code (`AffiliateReferralCode`) as read by
`transformReferralCode`.  Date strings are modelled as `Int` timestamps. -/
structure AffiliateReferralCode where
  id : String
  code : String
  createdAt : Option Int
  startDate : Option Int
  endDate : Option Int
  quota : Option Int
  noOfDays : Option Int
  stats : Option ReferralStats
  commissionConfig : Option (List CommissionRule)
  deriving Repr, DecidableEq

/-- The stats object handed to the dynamic earnings calculator by
`transformReferralCode` (`earningsStats`). -/
structure EarningsStats where
  signup : Nat
  free_trial : Nat
  purchase : Nat
  deriving Repr, DecidableEq

/-- `backendRef.stats?.totalReferrals ?? 0`. -/
def referralsCountOf (b : AffiliateReferralCode) : Nat :=
  (b.stats.bind (fun s => s.totalReferrals)).getD 0

/-- `backendRef.stats?.free_trial ?? 0`. -/
def trialConversionsOf (b : AffiliateReferralCode) : Nat :=
  (b.stats.bind (fun s => s.free_trial)).getD 0

/-- `backendRef.stats?.purchase ?? 0`. -/
def paidConversionsOf (b : AffiliateReferralCode) : Nat :=
  (b.stats.bind (fun s => s.purchase)).getD 0

/-- `conversions = signupConversions + trialConversions + paidConversions`
(with `signupConversions = referralsCount`). -/
def conversionsOf (b : AffiliateReferralCode) : Nat :=
  referralsCountOf b + trialConversionsOf b + paidConversionsOf b

/-- `usageCount = Math.max(conversions, referralsCount)`. -/
def usageCountOf (b : AffiliateReferralCode) : Nat :=
  max (conversionsOf b) (referralsCountOf b)

/-- `(endDate && endDate < now) || (startDate && startDate > now)`. -/
def inactiveByScheduleOf (now : Int) (b : AffiliateReferralCode) : Bool :=
  (match b.endDate with
    | some e => decide (e < now)
    | none => false)
  || (match b.startDate with
    | some s => decide (s > now)
    | none => false)

/-- The status derivation of `transformReferralCode`: `inactive` by schedule,
else `exhausted` when a quota is set and `usageCount ≥ quota`, else `active`. -/
def statusOf (now : Int) (b : AffiliateReferralCode) : ReferralStatus :=
  if inactiveByScheduleOf now b then
    ReferralStatus.inactive
  else
    match b.quota with
    | some q => if (usageCountOf b : Int) ≥ q then ReferralStatus.exhausted
        else ReferralStatus.active
    | none => ReferralStatus.active

/-- `transformReferralCode`.  The current time `now` and the dynamic earnings
calculator imported from `./earnings` (absent from this snapshot) are passed
as parameters; the status logic does not depend on either. -/
def transformReferralCode
    (calcEarnings : EarningsStats → List CommissionRule → DynEarningsBreakdown)
    (now : Int) (backendRef : AffiliateReferralCode) : ReferralCode :=
  { id := backendRef.id
    code := backendRef.code
    createdAt := ((backendRef.createdAt).or backendRef.startDate).getD now
    conversions := conversionsOf backendRef
    status := statusOf now backendRef
    commissionConfig := backendRef.commissionConfig.getD []
    quota := backendRef.quota
    referralsCount := referralsCountOf backendRef
    signupConversions := referralsCountOf backendRef
    startDate := backendRef.startDate
    endDate := backendRef.endDate
    trialConversions := trialConversionsOf backendRef
    paidConversions := paidConversionsOf backendRef
    earnings :=
      calcEarnings
        ⟨referralsCountOf backendRef, trialConversionsOf backendRef,
          paidConversionsOf backendRef⟩
        (backendRef.commissionConfig.getD []) }

/-- The status-derivation scenario code of the spec: `quota = 5`,
`referralsCount = 3`, conversions `{purchase: 4}`, no schedule bounds. -/
def statusScenarioCode : AffiliateReferralCode :=
  { id := "r1"
    code := "SCENARIO"
    createdAt := some 0
    startDate := none
    endDate := none
    quota := some 5
    noOfDays := none
    stats := some { totalReferrals := some 3, free_trial := some 0, purchase := some 4 }
    commissionConfig := none }

theorem statusOf_spec (now : Int) (b : AffiliateReferralCode) :
    (statusOf now b = ReferralStatus.inactive ↔ inactiveByScheduleOf now b = true)
    ∧ (statusOf now b = ReferralStatus.exhausted ↔ inactiveByScheduleOf now b = false ∧
        ∃ q, b.quota = some q ∧ q ≤ (usageCountOf b : Int))
    ∧ (statusOf now b = ReferralStatus.active ↔ inactiveByScheduleOf now b = false ∧
        ∀ q, b.quota = some q → (usageCountOf b : Int) < q) := by
  unfold statusOf
  cases hs : inactiveByScheduleOf now b
  · cases hq : b.quota with
    | none => simp
    | some q =>
      simp only [Bool.false_eq_true, if_false]
      by_cases hc : (usageCountOf b : Int) ≥ q
      · rw [if_pos hc]
        refine ⟨by simp, ?_, ?_⟩
        · constructor
          · intro _
            exact ⟨trivial, q, rfl, hc⟩
          · intro _
            rfl
        · constructor
          · intro h
            exact absurd h (by simp)
          · rintro ⟨-, hall⟩
            exact absurd (hall q rfl) (not_lt.mpr hc)
      · rw [if_neg hc]
        refine ⟨by simp, ?_, ?_⟩
        · constructor
          · intro h
            exact absurd h (by simp)
          · rintro ⟨-, q', hq', hle⟩
            cases hq'
            exact absurd hle hc
        · constructor
          · intro _
            refine ⟨trivial, fun q' hq' => ?_⟩
            cases hq'
            exact not_le.mp hc
          · intro _
            rfl
  · simp

/-- **C5**: `transformReferralCode` derives `inactive` exactly when `now` lies
outside a set schedule bound, otherwise `exhausted` exactly when a quota is
set and `max(conversions, referralsCount) ≥ quota` (with `conversions =
referralsCount + free_trial + purchase`), otherwise `active`; and the concrete
scenario (quota 5, 3 referrals, 4 purchases, no bounds) is `exhausted`. -/
theorem status_derivation
    (calcEarnings : EarningsStats → List CommissionRule → DynEarningsBreakdown)
    (now : Int) (b : AffiliateReferralCode) :
    ((transformReferralCode calcEarnings now b).status = ReferralStatus.inactive ↔
      (∃ e, b.endDate = some e ∧ e < now) ∨ (∃ s, b.startDate = some s ∧ s > now))
    ∧ ((transformReferralCode calcEarnings now b).status = ReferralStatus.exhausted ↔
      ¬ ((∃ e, b.endDate = some e ∧ e < now) ∨ (∃ s, b.startDate = some s ∧ s > now)) ∧
        ∃ q, b.quota = some q ∧
          (q ≤ (max (referralsCountOf b + trialConversionsOf b + paidConversionsOf b)
            (referralsCountOf b) : Int)))
    ∧ ((transformReferralCode calcEarnings now b).status = ReferralStatus.active ↔
      ¬ ((∃ e, b.endDate = some e ∧ e < now) ∨ (∃ s, b.startDate = some s ∧ s > now)) ∧
        ∀ q, b.quota = some q →
          ((max (referralsCountOf b + trialConversionsOf b + paidConversionsOf b)
            (referralsCountOf b) : Int) < q))
    ∧ (transformReferralCode calcEarnings now statusScenarioCode).status =
        ReferralStatus.exhausted := by
  have hsched : inactiveByScheduleOf now b = true ↔
      (∃ e, b.endDate = some e ∧ e < now) ∨ (∃ s, b.startDate = some s ∧ s > now) := by
    unfold inactiveByScheduleOf
    cases b.endDate <;> cases b.startDate <;> simp
  have hbool : inactiveByScheduleOf now b = false ↔
      ¬ ((∃ e, b.endDate = some e ∧ e < now) ∨ (∃ s, b.startDate = some s ∧ s > now)) := by
    rw [← hsched]
    simp
  have hM : (usageCountOf b : Int) =
      (max (referralsCountOf b + trialConversionsOf b + paidConversionsOf b)
        (referralsCountOf b) : Int) := by
    unfold usageCountOf conversionsOf
    push_cast
    rfl
  have hstatus : (transformReferralCode calcEarnings now b).status = statusOf now b := rfl
  have hspec := statusOf_spec now b
  refine ⟨?_, ?_, ?_, by rfl⟩
  · rw [hstatus, hspec.1, hsched]
  · rw [hstatus, hspec.2.1, ← hM]
    exact and_congr hbool Iff.rfl
  · rw [hstatus, hspec.2.2, ← hM]
    exact and_congr hbool Iff.rfl

/-- Witness for C5 at the scenario code and a second code inactivated by its
end date. -/
theorem status_derivation_witness :
    (transformReferralCode (fun _ _ => ⟨[], 0, "USD"⟩) 0 statusScenarioCode).status =
      ReferralStatus.exhausted ∧
    (transformReferralCode (fun _ _ => ⟨[], 0, "USD"⟩) 10
      { statusScenarioCode with endDate := some 5 }).status = ReferralStatus.inactive := by
  constructor
  · exact (status_derivation (fun _ _ => ⟨[], 0, "USD"⟩) 0 statusScenarioCode).2.2.2
  · exact ((status_derivation (fun _ _ => ⟨[], 0, "USD"⟩) 10
      { statusScenarioCode with endDate := some 5 }).1).2
      (Or.inl ⟨5, rfl, by norm_num⟩)

/-! ## Union schema, time series and filtering (`utils/eventAggregation.ts`) -/

/-- Metadata stored per event name in the union map (`EventMetadata`). -/
structure EventMetadata where
  displayName : String
  isPurchaseType : Bool
  deriving Repr, DecidableEq

/-- The insertion-ordered union map (`EventUnionMap`, a JS `Map`). -/
abbrev EventUnionMap := List (String × EventMetadata)

/-- An ISO timestamp: a day number and a time of day;
`timestamp.split("T")[0]` is the projection to `day`. -/
structure Timestamp where
  day : Int
  timeOfDay : Nat
  deriving Repr, DecidableEq

/-- One enriched event of a referral code: commission event name, display
name, aggregate count and the individual occurrence timestamps. -/
structure EnrichedEvent where
  commission_event_name : String
  display_name : String
  count : Nat
  timestamps : List Timestamp
  deriving Repr, DecidableEq

/-- `EnrichedReferralCodeData`: a referral code with its enriched events. -/
structure EnrichedReferralCodeData where
  code : String
  events : List EnrichedEvent
  deriving Repr, DecidableEq

/-- `Map.get` on an insertion-ordered association list (`none` = absent key,
mirroring both JS `Map.get` and `Record` property access). -/
def mapGet {α β : Type} [DecidableEq α] (m : List (α × β)) (k : α) : Option β :=
  (m.find? (fun p => p.1 = k)).map (fun p => p.2)

/-- `isPurchaseEventType`: membership of the lower-cased name in
`PURCHASE_EVENT_TYPES`. -/
def isPurchaseEventType (eventType : String) : Bool :=
  ["purchase", "free_trial", "subscription", "renewal"].contains eventType.toLower

/-- The guarded first-occurrence insert of the loop body of
`buildEventUnionMap`. -/
def unionInsert (unionMap : EventUnionMap) (event : EnrichedEvent) : EventUnionMap :=
  if (mapGet unionMap event.commission_event_name).isSome then
    unionMap
  else
    unionMap ++
      [(event.commission_event_name,
        { displayName := event.display_name
          isPurchaseType := isPurchaseEventType event.commission_event_name })]

/-- `buildEventUnionMap`. -/
def buildEventUnionMap (referralCodes : List EnrichedReferralCodeData) : EventUnionMap :=
  referralCodes.foldl (fun unionMap code => code.events.foldl unionInsert unionMap) []

/-- A `Record<string, number>` of per-event counts. -/
abbrev EventCounts := List (String × Nat)

/-- A counts record with every union-map event name initialized to 0. -/
def initCounts (unionMap : EventUnionMap) : EventCounts :=
  unionMap.map (fun p => (p.1, 0))

/-- `if (counts.hasOwnProperty(name)) counts[name]++`. -/
def bumpCount (counts : EventCounts) (name : String) : EventCounts :=
  if (mapGet counts name).isSome then
    counts.map (fun p => if p.1 = name then (p.1, p.2 + 1) else p)
  else
    counts

/-- The `dateCountsMap` of the time-series builder. -/
abbrev DateCountsMap := List (Int × EventCounts)

/-- Processing of one `(event name, timestamp)` pair by the collection loop of
`generateTimeSeriesFromEnrichedEvents`: initialize the date's record with all
union names at 0 when absent, then increment the event's entry. -/
def collectStep (unionMap : EventUnionMap) (m : DateCountsMap)
    (name : String) (ts : Timestamp) : DateCountsMap :=
  let dateKey := ts.day
  let m' := if (mapGet m dateKey).isSome then m else m ++ [(dateKey, initCounts unionMap)]
  m'.map (fun p => if p.1 = dateKey then (p.1, bumpCount p.2 name) else p)

/-- The nested collection loops of `generateTimeSeriesFromEnrichedEvents`. -/
def collectDateCounts (referralCodes : List EnrichedReferralCodeData)
    (unionMap : EventUnionMap) : DateCountsMap :=
  referralCodes.foldl
    (fun m code =>
      code.events.foldl
        (fun m event =>
          event.timestamps.foldl
            (fun m ts => collectStep unionMap m event.commission_event_name ts) m)
        m)
    []

/-- `Array.from(dateCountsMap.keys()).sort()[0]`: the minimum key of a
non-empty map (lexicographic sort of ISO dates is chronological). -/
def minKey : DateCountsMap → Int
  | [] => 0
  | (k, _) :: rest => rest.foldl (fun acc p => min acc p.1) k

/-- Date-range start resolution: an explicit start date, else the earliest
accumulated date, else `today − 30`. -/
def rangeStart (today : Int) (startDate : Option Int) (m : DateCountsMap) : Int :=
  match startDate with
  | some s => s
  | none => if 0 < m.length then minKey m else today - 30

/-- Date-range end resolution: an explicit end date, else `today`. -/
def rangeEnd (today : Int) (endDate : Option Int) : Int :=
  endDate.getD today

/-- The dates enumerated by the fill loop: `start, start+1, ..., end`. -/
def datesList (s e : Int) : List Int :=
  (List.range (e + 1 - s).toNat).map (fun (i : Nat) => s + (i : Int))

/-- One iteration of the fill loop: insert a zeroed record when the date is
not already present. -/
def fillStep (unionMap : EventUnionMap) (m : DateCountsMap) (dateKey : Int) : DateCountsMap :=
  if (mapGet m dateKey).isSome then m else m ++ [(dateKey, initCounts unionMap)]

/-- The fill loop: insert a zeroed record for every date of the range that is
not already present. -/
def fillDates (unionMap : EventUnionMap) (m : DateCountsMap) (s e : Int) : DateCountsMap :=
  (datesList s e).foldl (fillStep unionMap) m

/-- A produced series point (`TimeSeriesData`). -/
structure TimeSeriesData where
  date : Int
  signupConversions : Nat
  eventCounts : EventCounts
  trialConversions : Nat
  paidConversions : Nat
  deriving Repr, DecidableEq

/-- `generateTimeSeriesFromEnrichedEvents`, with the ambient current date
passed as `today`. -/
def generateTimeSeriesFromEnrichedEvents (referralCodes : List EnrichedReferralCodeData)
    (unionMap : EventUnionMap) (startDate endDate : Option Int) (today : Int) :
    List TimeSeriesData :=
  let dateCountsMap := collectDateCounts referralCodes unionMap
  let rangeStartIso := rangeStart today startDate dateCountsMap
  let rangeEndIso := rangeEnd today endDate
  let filled := fillDates unionMap dateCountsMap rangeStartIso rangeEndIso
  (datesList rangeStartIso rangeEndIso).map (fun date =>
    let counts := (mapGet filled date).getD []
    { date := date
      signupConversions := 0
      eventCounts := counts
      trialConversions := (mapGet counts "free_trial").getD 0
      paidConversions := (mapGet counts "purchase").getD 0 })

/-- `filterByReferralCodes`; the possibly-absent `selectedCodes` argument is
an `Option`. -/
def filterByReferralCodes (allCodes : List EnrichedReferralCodeData)
    (selectedCodes : Option (List String)) : List EnrichedReferralCodeData :=
  match selectedCodes with
  | none => allCodes
  | some sel =>
    if sel.length = 0 then allCodes
    else allCodes.filter (fun code => sel.contains code.code)

section MapLemmas

variable {α β : Type} [DecidableEq α]

theorem mapGet_nil (k : α) : mapGet ([] : List (α × β)) k = none := rfl

theorem mapGet_cons (a : α) (b : β) (m : List (α × β)) (k : α) :
    mapGet ((a, b) :: m) k = if a = k then some b else mapGet m k := by
  by_cases h : a = k
  · simp [mapGet, List.find?_cons_of_pos, h]
  · simp [mapGet, List.find?_cons_of_neg, h]

theorem mapGet_isSome_iff (m : List (α × β)) (k : α) :
    (mapGet m k).isSome ↔ k ∈ m.map Prod.fst := by
  induction m with
  | nil => simp [mapGet_nil]
  | cons p m ih =>
    obtain ⟨a, b⟩ := p
    rw [mapGet_cons]
    by_cases h : a = k
    · subst h; simp
    · have h' : ¬ k = a := fun hk => h hk.symm
      simp [h, h', ih]

theorem mapGet_eq_none_iff (m : List (α × β)) (k : α) :
    mapGet m k = none ↔ k ∉ m.map Prod.fst := by
  rw [← mapGet_isSome_iff, Option.not_isSome_iff_eq_none]

theorem mapGet_append (m m' : List (α × β)) (k : α) :
    mapGet (m ++ m') k =
      if (mapGet m k).isSome then mapGet m k else mapGet m' k := by
  induction m with
  | nil => simp [mapGet_nil]
  | cons p m ih =>
    obtain ⟨a, b⟩ := p
    rw [List.cons_append, mapGet_cons, mapGet_cons, ih]
    by_cases h : a = k <;> simp [h]

theorem mapGet_mem (m : List (α × β)) (k : α) (v : β) (h : mapGet m k = some v) :
    (k, v) ∈ m := by
  induction m with
  | nil => simp [mapGet_nil] at h
  | cons p m ih =>
    obtain ⟨a, b⟩ := p
    rw [mapGet_cons] at h
    by_cases ha : a = k
    · rw [if_pos ha, Option.some.injEq] at h
      subst ha; subst h
      exact List.mem_cons_self _ _
    · rw [if_neg ha] at h
      exact List.mem_cons_of_mem _ (ih h)

/-- A fold step that preserves a predicate preserves it along the whole fold. -/
theorem foldl_preserves {σ γ : Type} (P : σ → Prop) (f : σ → γ → σ)
    (hf : ∀ s a, P s → P (f s a)) :
    ∀ (l : List γ) (s : σ), P s → P (l.foldl f s) := by
  intro l
  induction l with
  | nil => intro s hs; exact hs
  | cons a l ih => intro s hs; exact ih (f s a) (hf s a hs)

/-- Folding over a `flatMap` is the nested fold. -/
theorem foldl_flatMap {γ δ σ : Type} (f : γ → List δ) (g : σ → δ → σ) :
    ∀ (l : List γ) (init : σ),
      (l.flatMap f).foldl g init = l.foldl (fun s a => (f a).foldl g s) init := by
  intro l
  induction l with
  | nil => intro init; rfl
  | cons a l ih =>
    intro init
    rw [List.flatMap_cons, List.foldl_append, List.foldl_cons, ih]

end MapLemmas

/-- Concrete enriched referral code used in witnesses/counterexamples. -/
def sampleCodeA : EnrichedReferralCodeData :=
  { code := "A"
    events := [{ commission_event_name := "purchase", display_name := "Purchase",
                 count := 2, timestamps := [⟨19723, 3600⟩, ⟨19725, 60⟩] }] }

/-- Concrete enriched referral code used in witnesses/counterexamples. -/
def sampleCodeB : EnrichedReferralCodeData :=
  { code := "B"
    events := [{ commission_event_name := "purchase", display_name := "Paid",
                 count := 1, timestamps := [⟨19724, 0⟩] },
               { commission_event_name := "3_meals_logged", display_name := "3 Meals Logged",
                 count := 1, timestamps := [⟨19724, 120⟩] }] }

/-- **C10**: an empty (or absent) selection is the identity filter, and a
non-empty selection keeps exactly the codes whose code string is selected. -/
theorem empty_filter_identity (allCodes : List EnrichedReferralCodeData)
    (sel : List String) :
    filterByReferralCodes allCodes none = allCodes
    ∧ filterByReferralCodes allCodes (some []) = allCodes
    ∧ (sel ≠ [] → ∀ c, c ∈ filterByReferralCodes allCodes (some sel) ↔
        c ∈ allCodes ∧ sel.contains c.code) := by
  refine ⟨rfl, rfl, ?_⟩
  intro hne c
  simp only [filterByReferralCodes]
  rw [if_neg (by simpa using hne)]
  simp [List.mem_filter]

/-- Witness for C10 with a two-code list and the selection `["A"]`. -/
theorem empty_filter_identity_witness :
    (sampleCodeA ∈ filterByReferralCodes [sampleCodeA, sampleCodeB] (some ["A"]) ↔
      sampleCodeA ∈ [sampleCodeA, sampleCodeB] ∧ ["A"].contains sampleCodeA.code) :=
  (empty_filter_identity [sampleCodeA, sampleCodeB] ["A"]).2.2 (by simp) sampleCodeA

section UnionMapLemmas

/-- The event stream scanned by `buildEventUnionMap`, in iteration order. -/
def flatUnionEvents (referralCodes : List EnrichedReferralCodeData) : List EnrichedEvent :=
  referralCodes.flatMap (fun code => code.events)

theorem buildEventUnionMap_eq_flat (referralCodes : List EnrichedReferralCodeData) :
    buildEventUnionMap referralCodes =
      (flatUnionEvents referralCodes).foldl unionInsert [] := by
  rw [buildEventUnionMap, flatUnionEvents, foldl_flatMap]

/-- The metadata recorded into `EventUnionMap` for an event. -/
def eventMetaOf (event : EnrichedEvent) : EventMetadata :=
  { displayName := event.display_name
    isPurchaseType := isPurchaseEventType event.commission_event_name }

theorem foldl_unionInsert_get (es : List EnrichedEvent) :
    ∀ (m : EventUnionMap) (n : String),
      mapGet (es.foldl unionInsert m) n =
        if (mapGet m n).isSome then mapGet m n
        else (es.find? (fun ev => ev.commission_event_name = n)).map eventMetaOf := by
  induction es with
  | nil =>
    intro m n
    cases h : mapGet m n <;> simp [h]
  | cons ev es ih =>
    intro m n
    rw [List.foldl_cons, ih]
    by_cases hm : (mapGet m n).isSome
    · have hins : mapGet (unionInsert m ev) n = mapGet m n := by
        unfold unionInsert
        split
        · rfl
        · rw [mapGet_append, if_pos hm]
      rw [hins, if_pos hm, if_pos hm]
    · have hmn : mapGet m n = none := Option.not_isSome_iff_eq_none.mp hm
      by_cases hev : ev.commission_event_name = n
      · subst hev
        have hins : mapGet (unionInsert m ev) ev.commission_event_name =
            some (eventMetaOf ev) := by
          unfold unionInsert
          rw [if_neg (by simp [hmn])]
          rw [mapGet_append, hmn]
          simp [mapGet_cons, eventMetaOf]
        rw [hins]
        simp only [Option.isSome_some, if_true, if_neg hm]
        rw [List.find?_cons_of_pos _ (by simp)]
        rfl
      · have hins : mapGet (unionInsert m ev) n = none := by
          unfold unionInsert
          split
          · exact hmn
          · rw [mapGet_append, hmn]
            simp [mapGet_cons, mapGet_nil, hev]
        rw [hins]
        simp only [Option.isSome_none, if_neg hm]
        rw [List.find?_cons_of_neg _ (by simp [hev])]
        simp

theorem buildEventUnionMap_get (referralCodes : List EnrichedReferralCodeData)
    (n : String) :
    mapGet (buildEventUnionMap referralCodes) n =
      ((flatUnionEvents referralCodes).find?
        (fun ev => ev.commission_event_name = n)).map eventMetaOf := by
  rw [buildEventUnionMap_eq_flat, foldl_unionInsert_get, mapGet_nil]
  rfl

theorem mem_keys_buildEventUnionMap (referralCodes : List EnrichedReferralCodeData)
    (n : String) :
    n ∈ (buildEventUnionMap referralCodes).map Prod.fst ↔
      ∃ code ∈ referralCodes, ∃ ev ∈ code.events, ev.commission_event_name = n := by
  rw [← mapGet_isSome_iff, buildEventUnionMap_get]
  have hmap : ∀ (o : Option EnrichedEvent), (o.map eventMetaOf).isSome = o.isSome := by
    intro o; cases o <;> rfl
  rw [hmap, List.find?_isSome]
  simp only [flatUnionEvents, List.mem_flatMap, decide_eq_true_eq]
  tauto

end UnionMapLemmas

/-- Counterexample code: one event named `a` displayed as `A`. -/
def cexCode1 : EnrichedReferralCodeData :=
  { code := "C1"
    events := [{ commission_event_name := "a", display_name := "A",
                 count := 1, timestamps := [] }] }

/-- Counterexample code: events named `a` (displayed `B`) and `b`. -/
def cexCode2 : EnrichedReferralCodeData :=
  { code := "C2"
    events := [{ commission_event_name := "a", display_name := "B",
                 count := 1, timestamps := [] },
               { commission_event_name := "b", display_name := "B",
                 count := 1, timestamps := [] }] }

/-- **C8, counterexample**: for the two-code list `[cexCode1, cexCode2]`, the
non-empty subset `[cexCode1]` misses the event name `b`, and the non-empty
subset `[cexCode2]` stores a different display name for `a` (`B` instead of
the full list's first-occurrence `A`): neither the key set nor the display
names are preserved by building the union map from a subset. -/
theorem union_schema_stability_counterexample :
    (∀ c ∈ [cexCode1], c ∈ [cexCode1, cexCode2]) ∧ [cexCode1] ≠ [] ∧
    (∀ c ∈ [cexCode2], c ∈ [cexCode1, cexCode2]) ∧ [cexCode2] ≠ [] ∧
    "b" ∈ (buildEventUnionMap [cexCode1, cexCode2]).map Prod.fst ∧
    "b" ∉ (buildEventUnionMap [cexCode1]).map Prod.fst ∧
    (mapGet (buildEventUnionMap [cexCode1, cexCode2]) "a").map EventMetadata.displayName =
      some "A" ∧
    (mapGet (buildEventUnionMap [cexCode2]) "a").map EventMetadata.displayName =
      some "B" := by
  refine ⟨by decide, by decide, by decide, by decide, by decide, by decide, ?_, ?_⟩
  · rw [buildEventUnionMap_get]
    rfl
  · rw [buildEventUnionMap_get]
    rfl

/-- **C8, amended**: building the union map from a sublist of the codes yields
a *subset* of the full key set (not always the same set); the purchase-type
flag of any shared event name agrees (it is a function of the name); and
within one build, the stored metadata of a name is exactly that of the name's
first occurrence in iteration order — later occurrences never alter it. -/
theorem union_schema_stability_amended
    (full sub : List EnrichedReferralCodeData) (hsub : sub.Sublist full) :
    (∀ n, n ∈ (buildEventUnionMap sub).map Prod.fst →
      n ∈ (buildEventUnionMap full).map Prod.fst)
    ∧ (∀ n ms mf, mapGet (buildEventUnionMap sub) n = some ms →
        mapGet (buildEventUnionMap full) n = some mf →
        ms.isPurchaseType = mf.isPurchaseType)
    ∧ (∀ (codes : List EnrichedReferralCodeData) (n : String),
        mapGet (buildEventUnionMap codes) n =
          ((flatUnionEvents codes).find?
            (fun ev => ev.commission_event_name = n)).map eventMetaOf) := by
  have hpt : ∀ (codes : List EnrichedReferralCodeData) (n : String) (meta : EventMetadata),
      mapGet (buildEventUnionMap codes) n = some meta →
      meta.isPurchaseType = isPurchaseEventType n := by
    intro codes n meta h
    rw [buildEventUnionMap_get] at h
    rcases Option.map_eq_some'.mp h with ⟨ev, hfind, hmeta⟩
    have hname : ev.commission_event_name = n := by
      simpa using List.find?_some hfind
    rw [← hmeta, eventMetaOf, hname]
  refine ⟨?_, ?_, fun codes n => buildEventUnionMap_get codes n⟩
  · intro n hn
    rw [mem_keys_buildEventUnionMap] at hn ⊢
    rcases hn with ⟨code, hcode, ev, hev, hname⟩
    exact ⟨code, hsub.subset hcode, ev, hev, hname⟩
  · intro n ms mf hms hmf
    rw [hpt sub n ms hms, hpt full n mf hmf]

/-- Witness for C8 (amended) at the sublist `[sampleCodeB]` of
`[sampleCodeA, sampleCodeB]`. -/
theorem union_schema_stability_amended_witness :
    "3_meals_logged" ∈ (buildEventUnionMap [sampleCodeA, sampleCodeB]).map Prod.fst :=
  (union_schema_stability_amended [sampleCodeA, sampleCodeB] [sampleCodeB]
    (List.sublist_cons_self sampleCodeA [sampleCodeB])).1
    "3_meals_logged" (by decide)

section TimeSeriesLemmas

/-- The `(event name, timestamp)` pairs scanned by the collection loops of
`generateTimeSeriesFromEnrichedEvents`, in iteration order. -/
def flatTimestamps (referralCodes : List EnrichedReferralCodeData) :
    List (String × Timestamp) :=
  referralCodes.flatMap (fun code =>
    code.events.flatMap (fun ev =>
      ev.timestamps.map (fun t => (ev.commission_event_name, t))))

theorem mem_flatTimestamps (referralCodes : List EnrichedReferralCodeData)
    (p : String × Timestamp) :
    p ∈ flatTimestamps referralCodes ↔
      ∃ code ∈ referralCodes, ∃ ev ∈ code.events, ∃ t ∈ ev.timestamps,
        p = (ev.commission_event_name, t) := by
  simp [flatTimestamps, List.mem_flatMap, eq_comm]

theorem collectDateCounts_eq_flat (referralCodes : List EnrichedReferralCodeData)
    (unionMap : EventUnionMap) :
    collectDateCounts referralCodes unionMap =
      (flatTimestamps referralCodes).foldl
        (fun m p => collectStep unionMap m p.1 p.2) [] := by
  unfold collectDateCounts flatTimestamps
  simp only [foldl_flatMap, List.foldl_map]

theorem map_update_keys {α β : Type} (m : List (α × β)) (dk : α) (g : α × β → β)
    [DecidableEq α] :
    (m.map (fun p => if p.1 = dk then (p.1, g p) else p)).map Prod.fst =
      m.map Prod.fst := by
  rw [List.map_map]
  congr 1
  funext p
  by_cases h : p.1 = dk <;> simp [h]

theorem bumpCount_keys (counts : EventCounts) (name : String) :
    (bumpCount counts name).map Prod.fst = counts.map Prod.fst := by
  unfold bumpCount
  split
  · exact map_update_keys counts name (fun p => p.2 + 1)
  · rfl

theorem initCounts_keys (unionMap : EventUnionMap) :
    (initCounts unionMap).map Prod.fst = unionMap.map Prod.fst := by
  unfold initCounts
  rw [List.map_map]
  rfl

theorem collectStep_keys (unionMap : EventUnionMap) (m : DateCountsMap)
    (name : String) (ts : Timestamp) :
    (collectStep unionMap m name ts).map Prod.fst =
      if (mapGet m ts.day).isSome then m.map Prod.fst
      else m.map Prod.fst ++ [ts.day] := by
  simp only [collectStep]
  split
  · rw [map_update_keys]
  · rw [map_update_keys, List.map_append]
    rfl

theorem collectStep_mem_keys (unionMap : EventUnionMap) (m : DateCountsMap)
    (name : String) (ts : Timestamp) (d : Int) :
    d ∈ (collectStep unionMap m name ts).map Prod.fst ↔
      d ∈ m.map Prod.fst ∨ d = ts.day := by
  rw [collectStep_keys]
  split
  · rename_i hpresent
    constructor
    · exact Or.inl
    · rintro (hd | rfl)
      · exact hd
      · exact (mapGet_isSome_iff m ts.day).mp hpresent
  · simp [List.mem_append]

theorem collect_foldl_mem_keys (unionMap : EventUnionMap) :
    ∀ (ps : List (String × Timestamp)) (m : DateCountsMap) (d : Int),
      d ∈ (ps.foldl (fun m p => collectStep unionMap m p.1 p.2) m).map Prod.fst ↔
        d ∈ m.map Prod.fst ∨ ∃ p ∈ ps, p.2.day = d := by
  intro ps
  induction ps with
  | nil => intro m d; simp
  | cons q ps ih =>
    intro m d
    rw [List.foldl_cons, ih, collectStep_mem_keys]
    constructor
    · rintro ((hd | rfl) | ⟨p, hp, rfl⟩)
      · exact Or.inl hd
      · exact Or.inr ⟨q, List.mem_cons_self q ps, rfl⟩
      · exact Or.inr ⟨p, List.mem_cons_of_mem q hp, rfl⟩
    · rintro (hd | ⟨p, hp, rfl⟩)
      · exact Or.inl (Or.inl hd)
      · rcases List.mem_cons.mp hp with rfl | hp
        · exact Or.inl (Or.inr rfl)
        · exact Or.inr ⟨p, hp, rfl⟩

theorem mem_keys_collectDateCounts (referralCodes : List EnrichedReferralCodeData)
    (unionMap : EventUnionMap) (d : Int) :
    d ∈ (collectDateCounts referralCodes unionMap).map Prod.fst ↔
      ∃ code ∈ referralCodes, ∃ ev ∈ code.events, ∃ t ∈ ev.timestamps, t.day = d := by
  rw [collectDateCounts_eq_flat, collect_foldl_mem_keys]
  simp only [List.map_nil, List.not_mem_nil, false_or]
  constructor
  · rintro ⟨p, hp, rfl⟩
    rcases (mem_flatTimestamps referralCodes p).mp hp with ⟨c, hc, ev, hev, t, ht, rfl⟩
    exact ⟨c, hc, ev, hev, t, ht, rfl⟩
  · rintro ⟨c, hc, ev, hev, t, ht, rfl⟩
    exact ⟨(ev.commission_event_name, t),
      (mem_flatTimestamps referralCodes _).mpr ⟨c, hc, ev, hev, t, ht, rfl⟩, rfl⟩

/-- Every record stored in the date-counts map carries exactly the union-map
key set. -/
def CountsKeysOk (unionMap : EventUnionMap) (m : DateCountsMap) : Prop :=
  ∀ kv ∈ m, kv.2.map Prod.fst = unionMap.map Prod.fst

theorem collectStep_countsKeysOk (unionMap : EventUnionMap) (m : DateCountsMap)
    (name : String) (ts : Timestamp) (h : CountsKeysOk unionMap m) :
    CountsKeysOk unionMap (collectStep unionMap m name ts) := by
  intro kv hkv
  simp only [collectStep] at hkv
  rcases List.mem_map.mp hkv with ⟨p, hp, rfl⟩
  have hpok : p.2.map Prod.fst = unionMap.map Prod.fst := by
    split at hp
    · exact h p hp
    · rcases List.mem_append.mp hp with hp | hp
      · exact h p hp
      · rcases List.mem_singleton.mp hp with rfl
        exact initCounts_keys unionMap
  by_cases hd : p.1 = ts.day
  · rw [if_pos hd]
    exact (bumpCount_keys p.2 name).trans hpok
  · rw [if_neg hd]
    exact hpok

theorem fillStep_countsKeysOk (unionMap : EventUnionMap) (m : DateCountsMap)
    (dk : Int) (h : CountsKeysOk unionMap m) :
    CountsKeysOk unionMap (fillStep unionMap m dk) := by
  intro kv hkv
  unfold fillStep at hkv
  split at hkv
  · exact h kv hkv
  · rcases List.mem_append.mp hkv with hkv | hkv
    · exact h kv hkv
    · rcases List.mem_singleton.mp hkv with rfl
      exact initCounts_keys unionMap

theorem collectDateCounts_countsKeysOk (referralCodes : List EnrichedReferralCodeData)
    (unionMap : EventUnionMap) :
    CountsKeysOk unionMap (collectDateCounts referralCodes unionMap) := by
  rw [collectDateCounts_eq_flat]
  exact foldl_preserves (CountsKeysOk unionMap) _
    (fun m p hm => collectStep_countsKeysOk unionMap m p.1 p.2 hm)
    (flatTimestamps referralCodes) [] (by intro kv hkv; simp at hkv)

theorem fillDates_countsKeysOk (referralCodes : List EnrichedReferralCodeData)
    (unionMap : EventUnionMap) (s e : Int) :
    CountsKeysOk unionMap
      (fillDates unionMap (collectDateCounts referralCodes unionMap) s e) := by
  unfold fillDates
  exact foldl_preserves (CountsKeysOk unionMap) _
    (fun m dk hm => fillStep_countsKeysOk unionMap m dk hm)
    (datesList s e) _ (collectDateCounts_countsKeysOk referralCodes unionMap)

theorem fillStep_isSome_mono (unionMap : EventUnionMap) (m : DateCountsMap)
    (dk k : Int) (h : (mapGet m k).isSome) :
    (mapGet (fillStep unionMap m dk) k).isSome := by
  unfold fillStep
  split
  · exact h
  · rw [mapGet_append, if_pos h]
    exact h

theorem fillStep_isSome_self (unionMap : EventUnionMap) (m : DateCountsMap) (dk : Int) :
    (mapGet (fillStep unionMap m dk) dk).isSome := by
  unfold fillStep
  split
  · assumption
  · rename_i hnone
    rw [mapGet_append, if_neg hnone, mapGet_cons, if_pos rfl]
    rfl

theorem fill_foldl_isSome (unionMap : EventUnionMap) :
    ∀ (l : List Int) (m : DateCountsMap) (k : Int), k ∈ l →
      (mapGet (l.foldl (fillStep unionMap) m) k).isSome := by
  intro l
  induction l with
  | nil => intro m k hk; simp at hk
  | cons a l ih =>
    intro m k hk
    rw [List.foldl_cons]
    rcases List.mem_cons.mp hk with rfl | hk
    · exact foldl_preserves (fun m => (mapGet m k).isSome = true) _
        (fun m dk hm => fillStep_isSome_mono unionMap m dk k hm) l _
        (fillStep_isSome_self unionMap m k)
    · exact ih _ k hk

theorem fillStep_get_preserve (unionMap : EventUnionMap) (m : DateCountsMap)
    (dk k : Int) (v : EventCounts) (h : mapGet m k = some v) :
    mapGet (fillStep unionMap m dk) k = some v := by
  unfold fillStep
  split
  · exact h
  · rw [mapGet_append, if_pos (by simp [h])]
    exact h

theorem fill_foldl_get_of_none (unionMap : EventUnionMap) :
    ∀ (l : List Int) (m : DateCountsMap) (k : Int), k ∈ l → mapGet m k = none →
      mapGet (l.foldl (fillStep unionMap) m) k = some (initCounts unionMap) := by
  intro l
  induction l with
  | nil => intro m k hk; simp at hk
  | cons a l ih =>
    intro m k hk hnone
    rw [List.foldl_cons]
    by_cases hak : k = a
    · subst hak
      have hstep : mapGet (fillStep unionMap m k) k = some (initCounts unionMap) := by
        unfold fillStep
        rw [if_neg (by simp [hnone]), mapGet_append, hnone]
        simp [mapGet_cons]
      exact foldl_preserves
        (fun m => mapGet m k = some (initCounts unionMap)) _
        (fun m dk hm => fillStep_get_preserve unionMap m dk k _ hm) l _ hstep
    · have hk' : k ∈ l := by
        rcases List.mem_cons.mp hk with h | h
        · exact absurd h hak
        · exact h
      have hstep : mapGet (fillStep unionMap m a) k = none := by
        unfold fillStep
        split
        · exact hnone
        · rw [mapGet_append, hnone]
          simp [mapGet_cons, mapGet_nil, Ne.symm hak]
      exact ih _ k hk' hstep

end TimeSeriesLemmas

theorem datesList_length (s e : Int) (h : s ≤ e) :
    ((datesList s e).length : Int) = e - s + 1 := by
  rw [datesList, List.length_map, List.length_range]
  omega

theorem mem_datesList (s e d : Int) : d ∈ datesList s e ↔ s ≤ d ∧ d ≤ e := by
  rw [datesList]
  constructor
  · intro hd
    rcases List.mem_map.mp hd with ⟨i, hi, rfl⟩
    rw [List.mem_range] at hi
    omega
  · intro hd
    refine List.mem_map.mpr ⟨(d - s).toNat, ?_, ?_⟩
    · rw [List.mem_range]; omega
    · omega

theorem datesList_pairwise (s e : Int) : (datesList s e).Pairwise (· < ·) := by
  rw [datesList, List.pairwise_map]
  exact (List.pairwise_lt_range _).imp (fun hab => by omega)

theorem generate_some_eq (referralCodes : List EnrichedReferralCodeData)
    (unionMap : EventUnionMap) (s e today : Int) :
    generateTimeSeriesFromEnrichedEvents referralCodes unionMap (some s) (some e) today =
      (datesList s e).map (fun date =>
        { date := date
          signupConversions := 0
          eventCounts :=
            (mapGet (fillDates unionMap (collectDateCounts referralCodes unionMap) s e)
              date).getD []
          trialConversions :=
            (mapGet ((mapGet (fillDates unionMap (collectDateCounts referralCodes unionMap)
              s e) date).getD []) "free_trial").getD 0
          paidConversions :=
            (mapGet ((mapGet (fillDates unionMap (collectDateCounts referralCodes unionMap)
              s e) date).getD []) "purchase").getD 0 }) := rfl

theorem foldl_min_le (l : List (Int × EventCounts)) :
    ∀ a : Int, l.foldl (fun acc p => min acc p.1) a ≤ a ∧
      ∀ p ∈ l, l.foldl (fun acc p => min acc p.1) a ≤ p.1 := by
  induction l with
  | nil => intro a; exact ⟨le_refl a, by simp⟩
  | cons q l ih =>
    intro a
    rw [List.foldl_cons]
    obtain ⟨h1, h2⟩ := ih (min a q.1)
    refine ⟨le_trans h1 (min_le_left _ _), ?_⟩
    intro p hp
    rcases List.mem_cons.mp hp with rfl | hp
    · exact le_trans h1 (min_le_right _ _)
    · exact h2 p hp

theorem foldl_min_mem (l : List (Int × EventCounts)) :
    ∀ a : Int, l.foldl (fun acc p => min acc p.1) a = a ∨
      ∃ p ∈ l, l.foldl (fun acc p => min acc p.1) a = p.1 := by
  induction l with
  | nil => intro a; exact Or.inl rfl
  | cons q l ih =>
    intro a
    rw [List.foldl_cons]
    rcases ih (min a q.1) with h | ⟨p, hp, h⟩
    · rcases min_cases a q.1 with ⟨hmin, _⟩ | ⟨hmin, _⟩
      · exact Or.inl (h.trans hmin)
      · exact Or.inr ⟨q, List.mem_cons_self q l, h.trans hmin⟩
    · exact Or.inr ⟨p, List.mem_cons_of_mem q hp, h⟩

theorem minKey_le (m : DateCountsMap) (k : Int) (hk : k ∈ m.map Prod.fst) :
    minKey m ≤ k := by
  cases m with
  | nil => simp at hk
  | cons q m =>
    obtain ⟨a, b⟩ := q
    show m.foldl (fun acc p => min acc p.1) a ≤ k
    rcases List.mem_map.mp hk with ⟨p, hp, rfl⟩
    rcases List.mem_cons.mp hp with rfl | hp
    · exact (foldl_min_le m a).1
    · exact (foldl_min_le m a).2 p hp

theorem minKey_mem (m : DateCountsMap) (hm : m ≠ []) :
    minKey m ∈ m.map Prod.fst := by
  cases m with
  | nil => exact absurd rfl hm
  | cons q m =>
    obtain ⟨a, b⟩ := q
    show m.foldl (fun acc p => min acc p.1) a ∈ ((a, b) :: m).map Prod.fst
    rcases foldl_min_mem m a with h | ⟨p, hp, h⟩
    · rw [h]; simp
    · rw [h]
      simp only [List.map_cons, List.mem_cons]
      exact Or.inr (List.mem_map.mpr ⟨p, hp, rfl⟩)

theorem rangeStart_none_of_ne_nil (today : Int) (m : DateCountsMap) (hm : m ≠ []) :
    rangeStart today none m = minKey m := by
  show (if 0 < m.length then minKey m else today - 30) = minKey m
  rw [if_pos (List.length_pos.mpr hm)]

theorem collectDateCounts_ne_nil (referralCodes : List EnrichedReferralCodeData)
    (unionMap : EventUnionMap) (c : EnrichedReferralCodeData) (hc : c ∈ referralCodes)
    (ev : EnrichedEvent) (hev : ev ∈ c.events) (t : Timestamp) (ht : t ∈ ev.timestamps) :
    collectDateCounts referralCodes unionMap ≠ [] := by
  intro hnil
  have hmem : t.day ∈ (collectDateCounts referralCodes unionMap).map Prod.fst :=
    (mem_keys_collectDateCounts referralCodes unionMap t.day).mpr
      ⟨c, hc, ev, hev, t, ht, rfl⟩
  rw [hnil] at hmem
  simp at hmem

theorem collectDateCounts_nil_of_no_timestamps
    (referralCodes : List EnrichedReferralCodeData) (unionMap : EventUnionMap)
    (h : ∀ c ∈ referralCodes, ∀ ev ∈ c.events, ∀ t : Timestamp, t ∉ ev.timestamps) :
    collectDateCounts referralCodes unionMap = [] := by
  rw [collectDateCounts_eq_flat]
  have hflat : flatTimestamps referralCodes = [] := by
    rw [List.eq_nil_iff_forall_not_mem]
    intro p hp
    rcases (mem_flatTimestamps referralCodes p).mp hp with ⟨c, hc, ev, hev, t, ht, rfl⟩
    exact h c hc ev hev t ht
  rw [hflat]
  rfl

theorem generate_none_eq (referralCodes : List EnrichedReferralCodeData)
    (unionMap : EventUnionMap) (today : Int) :
    generateTimeSeriesFromEnrichedEvents referralCodes unionMap none none today =
      (datesList (rangeStart today none (collectDateCounts referralCodes unionMap))
        (rangeEnd today none)).map (fun date =>
        { date := date
          signupConversions := 0
          eventCounts :=
            (mapGet (fillDates unionMap (collectDateCounts referralCodes unionMap)
              (rangeStart today none (collectDateCounts referralCodes unionMap))
              (rangeEnd today none)) date).getD []
          trialConversions :=
            (mapGet ((mapGet (fillDates unionMap (collectDateCounts referralCodes unionMap)
              (rangeStart today none (collectDateCounts referralCodes unionMap))
              (rangeEnd today none)) date).getD []) "free_trial").getD 0
          paidConversions :=
            (mapGet ((mapGet (fillDates unionMap (collectDateCounts referralCodes unionMap)
              (rangeStart today none (collectDateCounts referralCodes unionMap))
              (rangeEnd today none)) date).getD []) "purchase").getD 0 }) := rfl

/-- **C6**: with an explicit `[start, end]` range (`start ≤ end`), the series
has exactly `end − start + 1` points, strictly ascending in date (hence no
duplicates), every point's date lies in `[start, end]` (event dates outside
the range never appear), every union-map event name is a key of every point's
`eventCounts`, and a date with no event activity carries an all-zero record. -/
theorem time_series_completeness (referralCodes : List EnrichedReferralCodeData)
    (unionMap : EventUnionMap) (s e today : Int) (h : s ≤ e) :
    (((generateTimeSeriesFromEnrichedEvents referralCodes unionMap
        (some s) (some e) today).length : Int) = e - s + 1)
    ∧ ((generateTimeSeriesFromEnrichedEvents referralCodes unionMap
        (some s) (some e) today).map (fun p => p.date)).Pairwise (· < ·)
    ∧ (∀ p ∈ generateTimeSeriesFromEnrichedEvents referralCodes unionMap
        (some s) (some e) today, s ≤ p.date ∧ p.date ≤ e)
    ∧ (∀ p ∈ generateTimeSeriesFromEnrichedEvents referralCodes unionMap
        (some s) (some e) today, ∀ n ∈ unionMap.map Prod.fst,
        (mapGet p.eventCounts n).isSome)
    ∧ (∀ p ∈ generateTimeSeriesFromEnrichedEvents referralCodes unionMap
        (some s) (some e) today,
        (∀ c ∈ referralCodes, ∀ ev ∈ c.events, ∀ t ∈ ev.timestamps, t.day ≠ p.date) →
        ∀ kv ∈ p.eventCounts, kv.2 = 0) := by
  have hmapdates : (generateTimeSeriesFromEnrichedEvents referralCodes unionMap
      (some s) (some e) today).map (fun p => p.date) = datesList s e := by
    rw [generate_some_eq, List.map_map]
    exact List.map_id' (datesList s e)
  refine ⟨?_, ?_, ?_, ?_, ?_⟩
  · have hlen : (generateTimeSeriesFromEnrichedEvents referralCodes unionMap
        (some s) (some e) today).length = (datesList s e).length := by
      rw [← hmapdates, List.length_map]
    rw [hlen]
    exact datesList_length s e h
  · rw [hmapdates]
    exact datesList_pairwise s e
  · intro p hp
    rw [generate_some_eq] at hp
    rcases List.mem_map.mp hp with ⟨d, hd, rfl⟩
    exact (mem_datesList s e d).mp hd
  · intro p hp n hn
    rw [generate_some_eq] at hp
    rcases List.mem_map.mp hp with ⟨d, hd, rfl⟩
    have hsome : (mapGet (fillDates unionMap (collectDateCounts referralCodes unionMap)
        s e) d).isSome :=
      fill_foldl_isSome unionMap (datesList s e) _ d hd
    rcases Option.isSome_iff_exists.mp hsome with ⟨c, hc⟩
    have hckeys : c.map Prod.fst = unionMap.map Prod.fst :=
      fillDates_countsKeysOk referralCodes unionMap s e (d, c) (mapGet_mem _ _ _ hc)
    show (mapGet ((mapGet (fillDates unionMap (collectDateCounts referralCodes unionMap)
        s e) d).getD []) n).isSome
    rw [hc]
    exact (mapGet_isSome_iff c n).mpr (hckeys ▸ hn)
  · intro p hp hno kv hkv
    rw [generate_some_eq] at hp
    rcases List.mem_map.mp hp with ⟨d, hd, rfl⟩
    have hnotin : d ∉ (collectDateCounts referralCodes unionMap).map Prod.fst := by
      intro hmem
      rcases (mem_keys_collectDateCounts referralCodes unionMap d).mp hmem with
        ⟨c, hc, ev, hev, t, ht, hday⟩
      exact hno c hc ev hev t ht hday
    have hnone : mapGet (collectDateCounts referralCodes unionMap) d = none :=
      (mapGet_eq_none_iff _ _).mpr hnotin
    have hget : mapGet (fillDates unionMap (collectDateCounts referralCodes unionMap)
        s e) d = some (initCounts unionMap) :=
      fill_foldl_get_of_none unionMap (datesList s e) _ d hd hnone
    have hkv' : kv ∈ initCounts unionMap := by
      have : kv ∈ (mapGet (fillDates unionMap
          (collectDateCounts referralCodes unionMap) s e) d).getD [] := hkv
      rw [hget] at this
      exact this
    rcases List.mem_map.mp hkv' with ⟨q, hq, rfl⟩
    rfl

/-- Witness for C6 on the concrete range `[0, 2]` with no data. -/
theorem time_series_completeness_witness :
    (0 : Int) ≤ 2 ∧
    ((generateTimeSeriesFromEnrichedEvents [] [] (some 0) (some 2) 10).length : Int) =
      2 - 0 + 1 :=
  ⟨by norm_num, (time_series_completeness [] [] 0 2 10 (by norm_num)).1⟩

/-- Concrete enriched event with a single timestamp on day 100. -/
def sampleTsEvent : EnrichedEvent :=
  { commission_event_name := "purchase", display_name := "Purchase",
    count := 1, timestamps := [⟨100, 5⟩] }

/-- Concrete enriched referral code containing `sampleTsEvent`. -/
def sampleTsCode : EnrichedReferralCodeData :=
  { code := "T", events := [sampleTsEvent] }

/-- **C7**: with no explicit start date, the resolved range start is the
earliest day among the accumulated event timestamps when one exists, and
`today − 30` otherwise; with no explicit end date the range end is `today`;
and the produced series spans exactly the resolved range. -/
theorem default_range_derivation (referralCodes : List EnrichedReferralCodeData)
    (unionMap : EventUnionMap) (today : Int) :
    ((∃ c ∈ referralCodes, ∃ ev ∈ c.events, ∃ t : Timestamp, t ∈ ev.timestamps) →
      (∃ c ∈ referralCodes, ∃ ev ∈ c.events, ∃ t ∈ ev.timestamps,
        t.day = rangeStart today none (collectDateCounts referralCodes unionMap))
      ∧ (∀ c ∈ referralCodes, ∀ ev ∈ c.events, ∀ t ∈ ev.timestamps,
          rangeStart today none (collectDateCounts referralCodes unionMap) ≤ t.day))
    ∧ ((∀ c ∈ referralCodes, ∀ ev ∈ c.events, ∀ t : Timestamp, t ∉ ev.timestamps) →
        rangeStart today none (collectDateCounts referralCodes unionMap) = today - 30)
    ∧ rangeEnd today none = today
    ∧ (generateTimeSeriesFromEnrichedEvents referralCodes unionMap none none today).map
        (fun p => p.date) =
      datesList (rangeStart today none (collectDateCounts referralCodes unionMap))
        (rangeEnd today none) := by
  refine ⟨?_, ?_, rfl, ?_⟩
  · rintro ⟨c, hc, ev, hev, t, ht⟩
    have hne : collectDateCounts referralCodes unionMap ≠ [] :=
      collectDateCounts_ne_nil referralCodes unionMap c hc ev hev t ht
    rw [rangeStart_none_of_ne_nil today _ hne]
    constructor
    · exact (mem_keys_collectDateCounts referralCodes unionMap _).mp
        (minKey_mem _ hne)
    · intro c' hc' ev' hev' t' ht'
      exact minKey_le _ _
        ((mem_keys_collectDateCounts referralCodes unionMap t'.day).mpr
          ⟨c', hc', ev', hev', t', ht', rfl⟩)
  · intro hno
    rw [collectDateCounts_nil_of_no_timestamps referralCodes unionMap hno]
    rfl
  · rw [generate_none_eq, List.map_map]
    exact List.map_id' _

/-- Witness for C7 at a single code with one timestamp on day 100. -/
theorem default_range_derivation_witness :
    rangeEnd 7 none = 7 ∧
    rangeStart 7 none (collectDateCounts [sampleTsCode] []) ≤ 100 :=
  ⟨(default_range_derivation [sampleTsCode] [] 7).2.2.1,
    ((default_range_derivation [sampleTsCode] [] 7).1
      ⟨sampleTsCode, by simp, sampleTsEvent, by simp [sampleTsCode], ⟨100, 5⟩,
        by simp [sampleTsEvent]⟩).2
      sampleTsCode (by simp) sampleTsEvent (by simp [sampleTsCode]) ⟨100, 5⟩
      (by simp [sampleTsEvent])⟩

/-! ## Purchase-history parsing and validation (`utils/purchaseHistory.ts`) -/

/-- A JavaScript runtime value as inspected by the type guards (JSON-like).
Arrays count as objects for `typeof value === "object"` but expose none of the
named properties the guard checks. -/
inductive JsValue where
  | null
  | bool (b : Bool)
  | num (n : ℚ)
  | str (s : String)
  | arr (elems : List JsValue)
  | obj (fields : List (String × JsValue))

/-- `typeof value === "object" && value !== null` (`isRecord`). -/
def isRecord : JsValue → Bool
  | JsValue.obj _ => true
  | JsValue.arr _ => true
  | _ => false

/-- JS property access `value.name`: `undefined` (`none`) when missing or when
the value has no named properties. -/
def getProp : JsValue → String → Option JsValue
  | JsValue.obj fields, name => mapGet fields name
  | _, _ => none

/-- `typeof value.name === "number"`. -/
def isNumberProp (value : JsValue) (name : String) : Bool :=
  match getProp value name with
  | some (JsValue.num _) => true
  | _ => false

/-- `typeof value.name === "string"`. -/
def isStringProp (value : JsValue) (name : String) : Bool :=
  match getProp value name with
  | some (JsValue.str _) => true
  | _ => false

/-- `isPurchaseEventLike`: the 20 field-type checks of the guard. -/
def isPurchaseEventLike (value : JsValue) : Bool :=
  isRecord value &&
  isNumberProp value "event_timestamp_ms" &&
  isStringProp value "product_id" &&
  isStringProp value "period_type" &&
  isNumberProp value "purchased_at_ms" &&
  isNumberProp value "expiration_at_ms" &&
  isStringProp value "environment" &&
  isStringProp value "transaction_id" &&
  isStringProp value "original_transaction_id" &&
  isStringProp value "country_code" &&
  isStringProp value "app_user_id" &&
  isStringProp value "currency" &&
  isNumberProp value "price" &&
  isNumberProp value "price_in_purchased_currency" &&
  isStringProp value "store" &&
  isNumberProp value "takehome_percentage" &&
  isNumberProp value "tax_percentage" &&
  isNumberProp value "commission_percentage" &&
  isStringProp value "type" &&
  isStringProp value "id" &&
  isStringProp value "app_id"

/-- `PurchaseHistoryRecord`; its `event` field may hold a parsed array, a
serialized string, or anything else. -/
structure PurchaseHistoryRecord where
  id : String
  userId : String
  event : JsValue
  createdAt : Int
  updatedAt : Int

/-- `parsePurchaseEvents`.  `JSON.parse` is passed as a total function
returning `none` on a parse exception; the `catch` branch of the source is
the `none` arm, so the embedding never fails. -/
def parsePurchaseEvents (parseJson : String → Option JsValue)
    (record : PurchaseHistoryRecord) : List JsValue :=
  match record.event with
  | JsValue.arr elems => elems.filter isPurchaseEventLike
  | JsValue.str s =>
    (match parseJson s with
      | some (JsValue.arr elems) => elems.filter isPurchaseEventLike
      | some parsed => if isPurchaseEventLike parsed then [parsed] else []
      | none => [])
  | _ => []

/-- **C9**: `parsePurchaseEvents` is total (never throws); a string `event`
field that fails JSON parsing yields the empty list; and every returned
element passes the `isPurchaseEventLike` type guard, so invalid records are
dropped without aborting the batch. -/
theorem parse_failure_degradation (parseJson : String → Option JsValue)
    (record : PurchaseHistoryRecord) :
    (∀ v ∈ parsePurchaseEvents parseJson record, isPurchaseEventLike v = true)
    ∧ (∀ s, record.event = JsValue.str s → parseJson s = none →
        parsePurchaseEvents parseJson record = []) := by
  constructor
  · intro v hv
    unfold parsePurchaseEvents at hv
    split at hv
    · exact List.of_mem_filter hv
    · split at hv
      · exact List.of_mem_filter hv
      · split at hv
        · rcases List.mem_singleton.mp hv with rfl
          assumption
        · simp at hv
      · simp at hv
    · simp at hv
  · intro s hs hp
    unfold parsePurchaseEvents
    rw [hs]
    dsimp only
    rw [hp]

/-- Witness for C9 at a record whose serialized event payload fails to parse. -/
theorem parse_failure_degradation_witness :
    parsePurchaseEvents (fun _ => none)
      { id := "r", userId := "u", event := JsValue.str "not json",
        createdAt := 0, updatedAt := 0 } = [] :=
  (parse_failure_degradation (fun _ => none)
    { id := "r", userId := "u", event := JsValue.str "not json",
      createdAt := 0, updatedAt := 0 }).2 "not json" rfl rfl

end AffiliateProgram
